import Mathlib

/-!
Verification development for the ChatWallStreet holdings/price engine.

Shallow embedding of the core logic of `price_fetcher.py`, `storage.py`,
`config/symbol_groups.py` and `config/symbol_mappings.py`:

* Python floats are modelled by `Rat` where the code only ever produces
  finite values, and by `PFloat` (finite rational, infinities, NaN) where
  non-finite provider data matters.
* Python dicts are modelled by association lists with first-match lookup
  and update-in-place-or-append insertion, which matches insertion-ordered
  Python dict semantics.
* Network and filesystem effects are modelled by explicit oracle
  parameters (attempt outcomes, quote responses) and by returning the list
  of price-store writes instead of performing them.
-/

set_option autoImplicit false

namespace ChatWallStreet

/-! ## Symbol configuration (`config/symbol_groups.py`, `config/symbol_mappings.py`) -/

/-- Alias table `SYMBOL_ALIAS_TO_CANONICAL`, built from `SYMBOL_GROUPS`:
every alias of Berkshire Hathaway Class B, upper-cased, maps to `BRK.B`. -/
def SYMBOL_ALIAS_TO_CANONICAL : List (String × String) :=
  [("BRK-B", "BRK.B"), ("BRK.B", "BRK.B"), ("BRK B", "BRK.B"), ("BRKB", "BRK.B")]

/-- ASCII upper-casing of a string, the effect of Python `str.upper` on the
ASCII symbols this system handles; written on the character list so that it
evaluates by kernel reduction. -/
def upperStr (s : String) : String :=
  String.mk (s.data.map Char.toUpper)

/-- `normalize_symbol` from `config/symbol_groups.py`: case-insensitive alias
lookup, returning the input unchanged when no alias matches. -/
def normalize_symbol (symbol : String) : String :=
  match (SYMBOL_ALIAS_TO_CANONICAL.find? (fun kv => kv.1 == upperStr symbol)).map (·.2) with
  | some c => c
  | none => symbol

/-- Display-name table of `SYMBOL_GROUPS`: canonical symbol to display string. -/
def SYMBOL_GROUPS_DISPLAY : List (String × String) := [("BRK.B", "BRK.B")]

/-- `get_display_symbol` from `config/symbol_groups.py`. -/
def get_display_symbol (symbol : String) : String :=
  let canonical := normalize_symbol symbol
  match (SYMBOL_GROUPS_DISPLAY.find? (fun kv => kv.1 == canonical)).map (·.2) with
  | some d => d
  | none => canonical

/-- Per-provider symbol spelling table `SYMBOL_MAPPINGS` from
`config/symbol_mappings.py`. -/
def SYMBOL_MAPPINGS (provider : String) : List (String × String) :=
  if provider == "yfinance" then
    [("BRKB", "BRK-B"), ("BRK B", "BRK-B"), ("BRK.B", "BRK-B"),
     ("BRK.BR", "BRK-BR"), ("BRK.A", "BRK-A")]
  else if provider == "alpha_vantage" then
    [("BRK.B", "BRK.B"), ("BRK.BR", "BRK.BR"), ("BRK.A", "BRK.A")]
  else if provider == "iex_cloud" then
    [("BRK.B", "BRK.B"), ("BRK.BR", "BRK.BR"), ("BRK.A", "BRK.A")]
  else []

/-- `get_provider_symbol` from `config/symbol_mappings.py`: look the symbol up
in the provider's table, falling back to the symbol itself. -/
def get_provider_symbol (symbol provider : String) : String :=
  match ((SYMBOL_MAPPINGS provider).find? (fun kv => kv.1 == symbol)).map (·.2) with
  | some m => m
  | none => symbol

/-! ## Option heuristics (`price_fetcher.py` lines 41-70, `storage.py` line 242) -/

/-- Whether the symbol ends in a digit: the meaning of a successful
`re.search` for a trailing digit run on an ASCII symbol. -/
def endsInDigit (s : String) : Bool :=
  match s.data.getLast? with
  | some c => c.isDigit
  | none => false

/-- Whether `s` ends with `suffix` after upper-casing, as characters. -/
def endsWithUpper (s suffix : String) : Bool :=
  suffix.data.isSuffixOf (upperStr s).data

/-- `is_option` from `price_fetcher.py`: ends in a digit run, or ends in
CALL or PUT case-insensitively. -/
def is_option (symbol : String) : Bool :=
  endsInDigit symbol || endsWithUpper symbol "CALL" || endsWithUpper symbol "PUT"

/-- The special characters that `fetch_prices` (line 42) filters out of the
symbol list when `skip_options` is set. -/
def specialChars : List Char := ['$', '^', '=', '&', '|', '(', ')']

/-- Whether any of the `fetch_prices` special characters occurs in the symbol. -/
def hasSpecialChar (s : String) : Bool :=
  s.data.any (fun c => specialChars.contains c)

/-! ## Python floats with non-finite values -/

/-- Model of a Python float as seen in raw provider data: a finite rational,
one of the two infinities, or NaN. -/
inductive PFloat : Type where
  | finite (q : ℚ)
  | inf
  | negInf
  | nan
deriving DecidableEq

/-- Truth value of the Python comparison `price > 0` (false on NaN). -/
def PFloat.gtZero : PFloat → Bool
  | .finite q => decide (0 < q)
  | .inf => true
  | .negInf => false
  | .nan => false

/-- Truth value of the Python comparison `price < float(\x27inf\x27)` (false on NaN). -/
def PFloat.ltInf : PFloat → Bool
  | .finite _ => true
  | .inf => false
  | .negInf => true
  | .nan => false

/-- The finite value of a `PFloat`, zero on non-finite values. -/
def PFloat.toRat : PFloat → ℚ
  | .finite q => q
  | _ => 0

/-- Normalization applied by `fetch_prices_yfinance` (lines 107-109): a price
that is not finite-and-positive becomes `0.0`. -/
def normPrice (p : PFloat) : ℚ :=
  if p.gtZero && p.ltInf then p.toRat else 0

/-! ## Generic insertion-ordered grouping (Python dict built by a loop)

Each of the three grouping loops in the source (the price dicts and cache in
`price_fetcher.py`, the canonical grouping in `get_portfolio_values`, and
`group_by_symbol` in `storage.py`) builds an insertion-ordered dict keyed by
a string: a new key is appended at the end, an existing key's value is
updated in place. `gIns`/`gFold` capture that shape once. -/

/-- A dict-building loop: `key` extracts the dict key from an input element,
`gkey` reads the key stored on a group, `ginit` builds the group for a fresh
key, `gupd` folds another element into an existing group. -/
structure Grouping (α β : Type) where
  key : α → String
  gkey : β → String
  ginit : α → β
  gupd : β → α → β

/-- A `Grouping` whose constructors preserve the key: a fresh group carries
its element's key, and updating a group with a matching element keeps the
group's key. -/
def Grouping.Lawful {α β : Type} (G : Grouping α β) : Prop :=
  (∀ a, G.gkey (G.ginit a) = G.key a) ∧
  (∀ b a, G.gkey b = G.key a → G.gkey (G.gupd b a) = G.gkey b)

/-- One dict assignment: update the first group with the matching key in
place, else append a fresh group at the end. -/
def gIns {α β : Type} (G : Grouping α β) : List β → α → List β
  | [], a => [G.ginit a]
  | b :: bs, a => if G.gkey b = G.key a then G.gupd b a :: bs else b :: gIns G bs a

/-- The whole loop, starting from accumulated groups `bs`. -/
def gFold {α β : Type} (G : Grouping α β) (bs : List β) (l : List α) : List β :=
  l.foldl (gIns G) bs

/-- The dict instance of `Grouping`: values are replaced wholesale. -/
def dictG (V : Type) : Grouping (String × V) (String × V) :=
  ⟨Prod.fst, Prod.fst, id, fun _ a => a⟩

/-- Python `d[k] = v` on an association-list dict. -/
def dinsert {V : Type} (d : List (String × V)) (kv : String × V) : List (String × V) :=
  gIns (dictG V) d kv

/-- Python `d.get(k)` on an association-list dict. -/
def dlookup {V : Type} (d : List (String × V)) (k : String) : Option V :=
  (d.find? (fun kv => kv.1 == k)).map (·.2)

/-- First-encounter-order deduplication step. -/
def seenIns (acc : List String) (s : String) : List String :=
  if s ∈ acc then acc else acc ++ [s]

/-- The distinct elements of a list in first-encounter order: the key set of
a Python dict built by iterating the list. -/
def firstDedup (l : List String) : List String :=
  l.foldl seenIns []

/-! ## The yfinance price cache and fetcher (`price_fetcher.py` lines 72-131) -/

/-- One `_price_cache` entry: `{price, timestamp}`. Timestamps are the
`time.time()` clock, modelled as rationals. -/
structure CacheEntry : Type where
  price : ℚ
  timestamp : ℚ
deriving DecidableEq

/-- The in-memory `_price_cache` dict. -/
abbrev Cache := List (String × CacheEntry)

/-- `CACHE_EXPIRY_SECONDS` (line 27). -/
def CACHE_EXPIRY_SECONDS : ℚ := 600

/-- The cache-check loop of `fetch_prices_yfinance` (lines 87-95): returns
the dict of cache-hit prices and the `symbols_to_fetch` list. A duplicate
input symbol contributes one hit entry per occurrence rather than one dict
slot, which is lookup-equivalent since both occurrences read the same cache. -/
def cacheCheck (cache : Cache) (now : ℚ) (skipOptions : Bool) :
    List String → List (String × ℚ) × List String
  | [] => ([], [])
  | s :: rest =>
    let r := cacheCheck cache now skipOptions rest
    if skipOptions && is_option s then r
    else
      match dlookup cache s with
      | some e =>
          if now - e.timestamp < CACHE_EXPIRY_SECONDS then ((s, e.price) :: r.1, r.2)
          else (r.1, s :: r.2)
      | none => (r.1, s :: r.2)

/-- Whether the cache-check loop treats `s` as a fresh hit. -/
def isHit (cache : Cache) (now : ℚ) (s : String) : Bool :=
  match dlookup cache s with
  | some e => decide (now - e.timestamp < CACHE_EXPIRY_SECONDS)
  | none => false

/-- Raw `yf.download` close data: mapped symbol to its last close price;
`some none` models a row whose extraction raises (caught per symbol at
lines 114-116), a missing key models `mapped_symbol not in data` (line 111). -/
abbrev YData := List (String × Option PFloat)

/-- Per-symbol price extraction of the success path (lines 105-116):
normalized close price, `0.0` on a missing column or a raised extraction. -/
def yfExtract (data : YData) (mapped : String) : ℚ :=
  match dlookup data mapped with
  | some (some p) => normPrice p
  | some none => 0
  | none => 0

/-- The retry loop (lines 100-130) as seen from outside: the first
successful download among attempts `i`, `i+1`, ... with `fuel` attempts
remaining (`max_retries = 3` at the call site). -/
def firstSuccess (attempts : ℕ → Option YData) : ℕ → ℕ → Option YData
  | _, 0 => none
  | i, fuel + 1 =>
    match attempts i with
    | some d => some d
    | none => firstSuccess attempts (i + 1) fuel

/-- The cache writes of the fetch loop: each fetched pair is upserted into
`_price_cache` with timestamp `now` (lines 117-119 and 127-128). -/
def cacheStore (c : Cache) (now : ℚ) (fetched : List (String × ℚ)) : Cache :=
  (fetched.map (fun sp => (sp.1, CacheEntry.mk sp.2 now))).foldl dinsert c

/-- The price a symbol of the fetched batch resolves to: its extracted,
normalized close from the first successful download, or the `0.0` sentinel
when all three attempts fail (lines 101-130). -/
def yfFetchPrice (attempts : ℕ → Option YData) (s : String) : ℚ :=
  match firstSuccess attempts 0 3 with
  | some data => yfExtract data (get_provider_symbol s "yfinance")
  | none => 0

/-- `fetch_prices_yfinance` (lines 72-131) over an attempt oracle: returns
the `prices` dict and the final `_price_cache`. Hits come first in the dict,
then the fetched (or zero-defaulted) symbols, exactly as the two loops
insert them; the fetched block lists `symbols_to_fetch` in order, which is
lookup-equivalent to the Python dict since a repeated symbol maps to the
same price. -/
def fetch_prices_yfinance (cache : Cache) (symbols : List String) (now : ℚ)
    (attempts : ℕ → Option YData) (skipOptions : Bool) :
    List (String × ℚ) × Cache :=
  if (cacheCheck cache now skipOptions symbols).2.isEmpty then
    ((cacheCheck cache now skipOptions symbols).1, cache)
  else
    ((cacheCheck cache now skipOptions symbols).1 ++
      (cacheCheck cache now skipOptions symbols).2.map (fun s => (s, yfFetchPrice attempts s)),
     cacheStore cache now
       ((cacheCheck cache now skipOptions symbols).2.map (fun s => (s, yfFetchPrice attempts s))))

/-! ## The other two providers (`price_fetcher.py` lines 133-207) -/

/-- `fetch_prices_alpha_vantage` (lines 133-166) over a quote oracle:
`quote m = some p` models a response whose Global Quote carries price `p`
for mapped symbol `m`; `none` models a missing quote or a raised
request/parse error (each caught per symbol, lines 163-164). -/
def fetch_prices_alpha_vantage (symbols : List String)
    (quote : String → Option PFloat) : List (String × PFloat) :=
  symbols.map (fun s =>
    (s, match quote (get_provider_symbol s "alpha_vantage") with
        | some p => p
        | none => PFloat.finite 0))

/-- `fetch_prices_iex_cloud` (lines 168-207) over a batch-response oracle:
`none` models the whole batch request raising (lines 202-205), `some f`
a response where `f m` is the latest price of mapped symbol `m` when
present. -/
def fetch_prices_iex_cloud (symbols : List String)
    (resp : Option (String → Option PFloat)) : List (String × PFloat) :=
  match resp with
  | none => symbols.map (fun s => (s, PFloat.finite 0))
  | some f =>
      symbols.map (fun s =>
        (s, match f (get_provider_symbol s "iex_cloud") with
            | some p => p
            | none => PFloat.finite 0))

/-- The configured `PRICE_PROVIDER`. -/
inductive Provider : Type where
  | yfinance
  | alpha_vantage
  | iex_cloud
deriving DecidableEq

/-- `fetch_prices` (lines 29-50): filter out special-character symbols when
`skip_options` is set, then dispatch on the provider. The yfinance branch
calls `fetch_prices_yfinance` with its default `skip_options=True` (line 50)
and its finite prices are injected into `PFloat` to give the dispatch a
single return type. -/
def fetch_prices (provider : Provider) (symbols : List String) (skipOptions : Bool)
    (cache : Cache) (now : ℚ) (attempts : ℕ → Option YData)
    (avQuote : String → Option PFloat) (iexResp : Option (String → Option PFloat)) :
    List (String × PFloat) :=
  let symbols := if skipOptions then symbols.filter (fun s => !hasSpecialChar s) else symbols
  match provider with
  | .alpha_vantage => fetch_prices_alpha_vantage symbols avQuote
  | .iex_cloud => fetch_prices_iex_cloud symbols iexResp
  | .yfinance =>
      (fetch_prices_yfinance cache symbols now attempts true).1.map
        (fun sp => (sp.1, PFloat.finite sp.2))

/-! ## Holdings ledger and views (`storage.py`) -/

/-- A holdings row as produced by `read_holdings`: the four ledger columns
plus the price fields merged in from the price store (lines 47-55). -/
structure Holding : Type where
  symbol : String
  tag : String
  shares : ℚ
  last_updated : String
  last_price : Option ℚ
  last_price_time : Option String
deriving DecidableEq

/-- A row of the holdings CSV itself (`HOLDINGS_HEADERS`): what
`write_holdings` persists after stripping price fields (lines 114-118). -/
structure LedgerRow : Type where
  symbol : String
  tag : String
  shares : ℚ
  last_updated : String
deriving DecidableEq

/-- One extracted position passed to `update_holdings`. -/
structure Position : Type where
  symbol : String
  shares : ℚ
deriving DecidableEq

/-- `update_holdings` (lines 76-108) at the level of the persisted ledger:
drop every row carrying `tag`, then append one row per position stamped
with `timestamp`. (The side writes to the price store for positions that
carry a price are not part of the ledger state.) -/
def update_holdings (ledger : List LedgerRow) (positions : List Position)
    (tag : String) (timestamp : String) : List LedgerRow :=
  ledger.filter (fun h => h.tag != tag) ++
    positions.map (fun p => LedgerRow.mk p.symbol tag p.shares timestamp)

/-- Python truthiness of an optional tag list: `None` and `[]` are falsy. -/
def truthyTags : Option (List String) → Bool
  | some (_ :: _) => true
  | _ => false

/-- `filter_holdings` (lines 215-244): include filter when the include list
is truthy, then exclude filter when the exclude list is truthy, then the
trailing-digit option filter. -/
def filter_holdings (holdings : List Holding) (include_tags exclude_tags : Option (List String))
    (hide_options : Bool) : List Holding :=
  let f1 := if truthyTags include_tags then
      holdings.filter (fun h => (include_tags.getD []).contains h.tag)
    else holdings
  let f2 := if truthyTags exclude_tags then
      f1.filter (fun h => !(exclude_tags.getD []).contains h.tag)
    else f1
  if hide_options then f2.filter (fun h => !endsInDigit h.symbol) else f2

/-- One aggregated row of `group_by_symbol` (lines 262-271). -/
structure GroupedRow : Type where
  symbol : String
  shares : ℚ
  tag : String
  tags : List String
  last_updated : String
  last_price : Option ℚ
  last_price_time : Option String
deriving DecidableEq

/-- The larger of two timestamp strings by lexicographic comparison: the
effect of lines 277-279 when both values are strings, which they always
are in this model. -/
def lmax (a b : String) : String :=
  if a < b then b else a

/-- The fresh group created at lines 263-271. -/
def gbsInitRow (h : Holding) : GroupedRow :=
  GroupedRow.mk h.symbol h.shares h.tag [h.tag] h.last_updated h.last_price h.last_price_time

/-- Folding one more holding into an existing group (lines 272-279):
add shares, append an unseen tag, keep the lexicographically larger
`last_updated`. -/
def gbsUpdRow (g : GroupedRow) (h : Holding) : GroupedRow :=
  { g with
    shares := g.shares + h.shares
    tags := seenIns g.tags h.tag
    last_updated := lmax g.last_updated h.last_updated }

/-- The `Grouping` instance of `group_by_symbol`: keyed by the raw symbol. -/
def gbsG : Grouping Holding GroupedRow :=
  ⟨Holding.symbol, GroupedRow.symbol, gbsInitRow, gbsUpdRow⟩

/-- `group_by_symbol` (lines 246-281): the values of the insertion-ordered
`symbol_map` dict. -/
def group_by_symbol (holdings : List Holding) : List GroupedRow :=
  gFold gbsG [] holdings

/-! ## Portfolio enrichment (`price_fetcher.py` lines 209-293) -/

/-- The fresh grouped record of `get_portfolio_values` lines 226-228:
`{**h, symbol: canonical, shares: 0}` immediately incremented by
`h.shares`, so it carries the first member's fields and its shares. -/
def gpvInit (h : Holding) : Holding :=
  { h with symbol := normalize_symbol h.symbol }

/-- Folding a later holding of the same canonical symbol into the group
(line 228): only shares accumulate. -/
def gpvUpd (g : Holding) (h : Holding) : Holding :=
  { g with shares := g.shares + h.shares }

/-- The `Grouping` instance of lines 222-228: keyed by the canonical symbol. -/
def gpvG : Grouping Holding Holding :=
  ⟨fun h => normalize_symbol h.symbol, Holding.symbol, gpvInit, gpvUpd⟩

/-- The canonical-symbol grouping of `get_portfolio_values` (lines 222-228). -/
def gpvGrouped (holdings : List Holding) : List Holding :=
  gFold gpvG [] holdings

/-- The test at line 263: the grouped holding's price is missing or zero. -/
def needsFetch (h : Holding) : Bool :=
  match h.last_price with
  | none => true
  | some p => p == 0

/-- `prices.get(symbol, 0.0)` on the dict returned by the fetch. -/
def priceLookup (prices : List (String × ℚ)) (s : String) : ℚ :=
  match dlookup prices s with
  | some p => p
  | none => 0

/-- An enriched output row (lines 248 and 270 and 290): the grouped holding
with its symbol re-expanded to display form plus `price` and
`value = shares * price`. -/
structure Enriched : Type where
  symbol : String
  tag : String
  shares : ℚ
  last_updated : String
  last_price : Option ℚ
  last_price_time : Option String
  price : ℚ
  value : ℚ
deriving DecidableEq

/-- Build the enriched row for grouped holding `h` at price `p`. -/
def enrichRow (h : Holding) (p : ℚ) : Enriched :=
  Enriched.mk (get_display_symbol h.symbol) h.tag h.shares h.last_updated
    h.last_price h.last_price_time p (h.shares * p)

/-- One `storage.update_price(symbol, price, now_iso)` call. -/
structure PriceWrite : Type where
  symbol : String
  price : ℚ
  time : String
deriving DecidableEq

/-- `get_portfolio_values` (lines 209-293) over an abstract price fetch
(the awaited `fetch_prices` result as a dict): returns the enriched rows
and the ordered list of `update_price` calls it issues. -/
def get_portfolio_values (holdings : List Holding) (force_refresh : Bool)
    (fetch : List String → List (String × ℚ)) (now_iso : String) :
    List Enriched × List PriceWrite :=
  let grouped := gpvGrouped holdings
  if force_refresh then
    let prices := fetch (grouped.map (·.symbol))
    (grouped.map (fun h =>
        enrichRow { h with last_price := some (priceLookup prices h.symbol),
                           last_price_time := some now_iso } (priceLookup prices h.symbol)),
     grouped.map (fun h => PriceWrite.mk h.symbol (priceLookup prices h.symbol) now_iso))
  else
    let hits := grouped.filter (fun h => !needsFetch h)
    let toFetch := (grouped.filter needsFetch).map (·.symbol)
    let hitRows := hits.map (fun h =>
      enrichRow h (match h.last_price with | some p => p | none => 0))
    if toFetch.isEmpty then (hitRows, [])
    else
      let prices := fetch toFetch
      (hitRows ++ (grouped.filter needsFetch).map (fun h =>
          enrichRow { h with last_price := some (priceLookup prices h.symbol),
                             last_price_time := some now_iso } (priceLookup prices h.symbol)),
       toFetch.map (fun s => PriceWrite.mk s (priceLookup prices s) now_iso))

/-! ## Lemmas about the generic grouping fold -/

section GroupingLemmas

variable {α β : Type} (G : Grouping α β)

theorem gIns_find?_eq (hG : G.Lawful) (bs : List β) (a : α) :
    (gIns G bs a).find? (fun b => G.gkey b == G.key a) =
      some (match bs.find? (fun b => G.gkey b == G.key a) with
            | some b => G.gupd b a
            | none => G.ginit a) := by
  induction bs with
  | nil => simp [gIns, List.find?, hG.1 a]
  | cons b bs ih =>
    by_cases h : G.gkey b = G.key a
    · simp [gIns, h, List.find?, hG.2 b a h]
    · simp only [gIns, if_neg h, List.find?]
      have hb : (G.gkey b == G.key a) = false := by simpa using h
      simp [hb, ih]

theorem gIns_find?_ne (hG : G.Lawful) (bs : List β) (a : α) (s : String)
    (hs : G.key a ≠ s) :
    (gIns G bs a).find? (fun b => G.gkey b == s) = bs.find? (fun b => G.gkey b == s) := by
  have hks : (G.key a == s) = false := by simpa using hs
  induction bs with
  | nil => simp [gIns, List.find?, hG.1 a, hks]
  | cons b bs ih =>
    by_cases h : G.gkey b = G.key a
    · have hb : (G.gkey b == s) = false := by simp [h, hs]
      simp [gIns, h, List.find?, hG.2 b a h, hb, hks]
    · simp only [gIns, if_neg h, List.find?]
      cases hbs : (G.gkey b == s) <;> simp [hbs, ih]

theorem gFold_find? (hG : G.Lawful) (l : List α) (bs : List β) (s : String) :
    (gFold G bs l).find? (fun b => G.gkey b == s) =
      match bs.find? (fun b => G.gkey b == s), l.filter (fun a => G.key a == s) with
      | some b, la => some (la.foldl G.gupd b)
      | none, [] => none
      | none, a :: la => some (la.foldl G.gupd (G.ginit a)) := by
  induction l generalizing bs with
  | nil =>
    cases h : bs.find? (fun b => G.gkey b == s) <;> simp [gFold, h]
  | cons a l ih =>
    have hstep : gFold G bs (a :: l) = gFold G (gIns G bs a) l := rfl
    by_cases hks : G.key a = s
    · subst hks
      have hfilter : (a :: l).filter (fun x => G.key x == G.key a) =
          a :: l.filter (fun x => G.key x == G.key a) := by
        simp [List.filter]
      rw [hstep, ih (gIns G bs a), gIns_find?_eq G hG, hfilter]
      cases h : bs.find? (fun b => G.gkey b == G.key a) <;> simp [h]
    · have hb : (G.key a == s) = false := by simpa using hks
      have hfilter : (a :: l).filter (fun x => G.key x == s) =
          l.filter (fun x => G.key x == s) := by
        simp [List.filter, hb]
      rw [hstep, ih (gIns G bs a), gIns_find?_ne G hG bs a s hks, hfilter]

theorem gIns_map_gkey (hG : G.Lawful) (bs : List β) (a : α) :
    (gIns G bs a).map G.gkey = seenIns (bs.map G.gkey) (G.key a) := by
  induction bs with
  | nil => simp [gIns, seenIns, hG.1 a]
  | cons b bs ih =>
    by_cases h : G.gkey b = G.key a
    · simp [gIns, h, seenIns, hG.2 b a h, List.mem_cons]
    · have hne : G.key a ≠ G.gkey b := Ne.symm h
      simp only [gIns, if_neg h, List.map_cons, ih, seenIns, List.mem_cons]
      by_cases hm : G.key a ∈ bs.map G.gkey
      · simp [hm, hne]
      · simp [hm, hne]

theorem gFold_map_gkey (hG : G.Lawful) (l : List α) (bs : List β) :
    (gFold G bs l).map G.gkey = (l.map G.key).foldl seenIns (bs.map G.gkey) := by
  induction l generalizing bs with
  | nil => rfl
  | cons a l ih =>
    have hstep : gFold G bs (a :: l) = gFold G (gIns G bs a) l := rfl
    rw [hstep, ih (gIns G bs a), gIns_map_gkey G hG]
    rfl

end GroupingLemmas

theorem seenIns_mem (acc : List String) (s x : String) :
    x ∈ seenIns acc s ↔ x ∈ acc ∨ x = s := by
  unfold seenIns
  by_cases h : s ∈ acc
  · simp only [if_pos h]
    constructor
    · exact fun hx => Or.inl hx
    · rintro (hx | rfl)
      · exact hx
      · exact h
  · simp [if_neg h]

theorem seenFold_mem (l : List String) : ∀ (acc : List String) (x : String),
    x ∈ l.foldl seenIns acc ↔ x ∈ acc ∨ x ∈ l := by
  induction l with
  | nil => simp
  | cons s l ih =>
    intro acc x
    rw [List.foldl_cons, ih, seenIns_mem]
    constructor
    · rintro ((hx | rfl) | hx)
      · exact Or.inl hx
      · simp
      · simp [hx]
    · rintro (hx | hx)
      · exact Or.inl (Or.inl hx)
      · rcases List.mem_cons.mp hx with rfl | hx
        · exact Or.inl (Or.inr rfl)
        · exact Or.inr hx

theorem seenFold_nodup (l : List String) : ∀ acc : List String,
    acc.Nodup → (l.foldl seenIns acc).Nodup := by
  induction l with
  | nil => exact fun acc h => h
  | cons s l ih =>
    intro acc hacc
    rw [List.foldl_cons]
    apply ih
    unfold seenIns
    by_cases h : s ∈ acc
    · simpa [h] using hacc
    · simp [h, List.nodup_append, hacc]

theorem firstDedup_mem (l : List String) (x : String) :
    x ∈ firstDedup l ↔ x ∈ l := by
  unfold firstDedup
  rw [seenFold_mem]
  simp

theorem firstDedup_nodup (l : List String) : (firstDedup l).Nodup :=
  seenFold_nodup l [] List.nodup_nil

theorem find?_of_mem_nodup_keys {β : Type} (f : β → String) (bs : List β) (b : β)
    (hnd : (bs.map f).Nodup) (hb : b ∈ bs) :
    bs.find? (fun x => f x == f b) = some b := by
  induction bs with
  | nil => cases hb
  | cons c bs ih =>
    rcases List.mem_cons.mp hb with rfl | hb
    · simp [List.find?]
    · have hne : f c ≠ f b := by
        intro h
        have : f b ∈ bs.map f := List.mem_map.mpr ⟨b, hb, rfl⟩
        rw [← h] at this
        exact (List.nodup_cons.mp hnd).1 this
      have : (f c == f b) = false := by simpa using hne
      simp [List.find?, this, ih (List.nodup_cons.mp hnd).2 hb]

theorem find?_eq_head?_filter {β : Type} (p : β → Bool) (l : List β) :
    l.find? p = (l.filter p).head? := by
  induction l with
  | nil => rfl
  | cons b l ih =>
    rw [List.find?_cons, List.filter_cons]
    cases h : p b
    · exact ih
    · rfl

theorem mem_dinsert {V : Type} (d : List (String × V)) (kv x : String × V)
    (hx : x ∈ dinsert d kv) : x ∈ d ∨ x = kv := by
  induction d with
  | nil => simpa [dinsert, gIns, dictG] using hx
  | cons b d ih =>
    by_cases h : b.1 = kv.1
    · simp only [dinsert, gIns, dictG] at hx
      rw [if_pos h] at hx
      rcases List.mem_cons.mp hx with rfl | hx
      · exact Or.inr rfl
      · exact Or.inl (List.mem_cons.mpr (Or.inr hx))
    · simp only [dinsert, gIns, dictG] at hx
      rw [if_neg h] at hx
      rcases List.mem_cons.mp hx with rfl | hx
      · exact Or.inl (List.mem_cons.mpr (Or.inl rfl))
      · rcases ih hx with hx | hx
        · exact Or.inl (List.mem_cons.mpr (Or.inr hx))
        · exact Or.inr hx

theorem mem_foldl_dinsert {V : Type} (l : List (String × V)) :
    ∀ (c : List (String × V)) (x : String × V),
      x ∈ l.foldl dinsert c → x ∈ c ∨ x ∈ l := by
  induction l with
  | nil => exact fun c x hx => Or.inl hx
  | cons kv l ih =>
    intro c x hx
    rw [List.foldl_cons] at hx
    rcases ih (dinsert c kv) x hx with hx | hx
    · rcases mem_dinsert c kv x hx with hx | rfl
      · exact Or.inl hx
      · exact Or.inr (List.mem_cons.mpr (Or.inl rfl))
    · exact Or.inr (List.mem_cons.mpr (Or.inr hx))

theorem gFold_keys_nodup {α β : Type} (G : Grouping α β) (hG : G.Lawful) (l : List α) :
    ((gFold G [] l).map G.gkey).Nodup := by
  rw [gFold_map_gkey G hG]
  exact seenFold_nodup _ _ List.nodup_nil

theorem mem_gFold_eq {α β : Type} (G : Grouping α β) (hG : G.Lawful) (l : List α) (g : β)
    (hg : g ∈ gFold G [] l) :
    ∃ a la, l.filter (fun x => G.key x == G.gkey g) = a :: la ∧
      g = la.foldl G.gupd (G.ginit a) := by
  have hfind := find?_of_mem_nodup_keys G.gkey (gFold G [] l) g (gFold_keys_nodup G hG l) hg
  rw [gFold_find? G hG l [] (G.gkey g)] at hfind
  simp only [List.find?_nil] at hfind
  cases hf : l.filter (fun x => G.key x == G.gkey g) with
  | nil => rw [hf] at hfind; cases hfind
  | cons a la =>
    rw [hf] at hfind
    exact ⟨a, la, rfl, (Option.some.injEq _ _ ▸ hfind).symm⟩

theorem foldl_replace_all_eq {β : Type} (l : List β) :
    ∀ (b x : β), (∀ y ∈ l, y = x) → l ≠ [] → l.foldl (fun _ a => a) b = x := by
  induction l with
  | nil => intro b x _ h; cases h rfl
  | cons y l ih =>
    intro b x hall _
    rw [List.foldl_cons]
    by_cases hl : l = []
    · subst hl
      simpa using hall y (by simp)
    · exact ih y x (fun z hz => hall z (List.mem_cons.mpr (Or.inr hz))) hl

/-! ## Lawfulness of the concrete groupings and their fold closed forms -/

theorem gbsG_lawful : gbsG.Lawful :=
  ⟨fun _ => rfl, fun _ _ _ => rfl⟩

theorem gpvG_lawful : gpvG.Lawful :=
  ⟨fun _ => rfl, fun _ _ _ => rfl⟩

@[simp] theorem gbsG_key : gbsG.key = Holding.symbol := rfl

@[simp] theorem gbsG_gkey : gbsG.gkey = GroupedRow.symbol := rfl

@[simp] theorem gbsG_ginit : gbsG.ginit = gbsInitRow := rfl

@[simp] theorem gbsG_gupd : gbsG.gupd = gbsUpdRow := rfl

@[simp] theorem gpvG_key : gpvG.key = fun h => normalize_symbol h.symbol := rfl

@[simp] theorem gpvG_gkey : gpvG.gkey = Holding.symbol := rfl

@[simp] theorem gpvG_ginit : gpvG.ginit = gpvInit := rfl

@[simp] theorem gpvG_gupd : gpvG.gupd = gpvUpd := rfl

theorem gbs_foldl_upd (l : List Holding) : ∀ g : GroupedRow,
    l.foldl gbsUpdRow g =
      { g with
        shares := g.shares + (l.map Holding.shares).sum,
        tags := (l.map Holding.tag).foldl seenIns g.tags,
        last_updated := (l.map Holding.last_updated).foldl lmax g.last_updated } := by
  induction l with
  | nil => intro g; simp
  | cons h l ih =>
    intro g
    rw [List.foldl_cons, ih]
    simp [gbsUpdRow, add_assoc]

theorem gpv_foldl_upd (l : List Holding) : ∀ g : Holding,
    l.foldl gpvUpd g = { g with shares := g.shares + (l.map Holding.shares).sum } := by
  induction l with
  | nil => intro g; simp
  | cons h l ih =>
    intro g
    rw [List.foldl_cons, ih]
    simp [gpvUpd, add_assoc]

theorem lmax_le_left (a b : String) : a ≤ lmax a b := by
  unfold lmax
  by_cases h : a < b
  · rw [if_pos h]; exact le_of_lt h
  · rw [if_neg h]

theorem lmax_le_right (a b : String) : b ≤ lmax a b := by
  unfold lmax
  by_cases h : a < b
  · rw [if_pos h]
  · rw [if_neg h]; exact le_of_not_lt h

theorem le_foldl_lmax (l : List String) : ∀ a : String, a ≤ l.foldl lmax a := by
  induction l with
  | nil => exact fun a => le_refl a
  | cons b l ih =>
    intro a
    rw [List.foldl_cons]
    exact le_trans (lmax_le_left a b) (ih (lmax a b))

theorem foldl_lmax_le (l : List String) : ∀ (a x : String), x ∈ l → x ≤ l.foldl lmax a := by
  induction l with
  | nil => intro _ _ hx; cases hx
  | cons b l ih =>
    intro a x hx
    rw [List.foldl_cons]
    rcases List.mem_cons.mp hx with rfl | hx
    · exact le_trans (lmax_le_right a x) (le_foldl_lmax l (lmax a x))
    · exact ih (lmax a b) x hx

theorem foldl_lmax_mem (l : List String) : ∀ a : String,
    l.foldl lmax a = a ∨ l.foldl lmax a ∈ l := by
  induction l with
  | nil => exact fun a => Or.inl rfl
  | cons b l ih =>
    intro a
    rw [List.foldl_cons]
    rcases ih (lmax a b) with h | h
    · rw [h]
      unfold lmax
      by_cases hab : a < b
      · rw [if_pos hab]; exact Or.inr (List.mem_cons.mpr (Or.inl rfl))
      · rw [if_neg hab]; exact Or.inl rfl
    · exact Or.inr (List.mem_cons.mpr (Or.inr h))

/-! ## C9: `group_by_symbol` -/

/-- C9: `group_by_symbol` groups by the raw symbol string, producing one
record per distinct raw symbol (in first-encounter order, hence distinct
keys); each record's `shares` is the sum of the group's shares, its `tags`
collects the distinct tags in first-encounter order under exact string
equality, and its `last_updated` is the lexicographically greatest
`last_updated` string among the group's members. -/
theorem group_by_symbol_spec (hs : List Holding) :
    ((group_by_symbol hs).map GroupedRow.symbol = firstDedup (hs.map Holding.symbol)) ∧
    ((group_by_symbol hs).map GroupedRow.symbol).Nodup ∧
    ∀ g ∈ group_by_symbol hs,
      g.shares = ((hs.filter (fun h => h.symbol == g.symbol)).map Holding.shares).sum ∧
      g.tags = firstDedup ((hs.filter (fun h => h.symbol == g.symbol)).map Holding.tag) ∧
      g.last_updated ∈ (hs.filter (fun h => h.symbol == g.symbol)).map Holding.last_updated ∧
      ∀ u ∈ (hs.filter (fun h => h.symbol == g.symbol)).map Holding.last_updated,
        u ≤ g.last_updated := by
  refine ⟨gFold_map_gkey gbsG gbsG_lawful hs [], gFold_keys_nodup gbsG gbsG_lawful hs, ?_⟩
  intro g hg
  obtain ⟨a, la, hf, hgeq⟩ := mem_gFold_eq gbsG gbsG_lawful hs g hg
  simp only [gbsG_key, gbsG_gkey, gbsG_ginit, gbsG_gupd] at hf hgeq
  rw [gbs_foldl_upd] at hgeq
  rw [hf]
  subst hgeq
  refine ⟨?_, ?_, ?_, ?_⟩
  · simp [gbsInitRow]
  · simp only [gbsInitRow, List.map_cons, firstDedup, List.foldl_cons]
    rfl
  · simpa [gbsInitRow] using foldl_lmax_mem (la.map Holding.last_updated) a.last_updated
  · intro u hu
    simp only [List.map_cons, List.mem_cons] at hu
    rcases hu with rfl | hu
    · simpa [gbsInitRow] using le_foldl_lmax (la.map Holding.last_updated) a.last_updated
    · simpa [gbsInitRow] using foldl_lmax_le (la.map Holding.last_updated) a.last_updated u hu

/-- Witness for C9: the grouping example `[{AAPL, tagA, 10}, {AAPL, tagB, 5}]`
yields one row whose shares are `10 + 5` and whose tags are `[tagA, tagB]`. -/
theorem group_by_symbol_spec_witness :
    (10 : ℚ) + 5 =
      ((([⟨"AAPL", "tagA", 10, "2024-01-01", none, none⟩,
          ⟨"AAPL", "tagB", 5, "2024-01-02", none, none⟩] : List Holding).filter
            (fun h => h.symbol == "AAPL")).map Holding.shares).sum ∧
    ["tagA", "tagB"] =
      firstDedup ((([⟨"AAPL", "tagA", 10, "2024-01-01", none, none⟩,
          ⟨"AAPL", "tagB", 5, "2024-01-02", none, none⟩] : List Holding).filter
            (fun h => h.symbol == "AAPL")).map Holding.tag) := by
  have h := (group_by_symbol_spec
      [⟨"AAPL", "tagA", 10, "2024-01-01", none, none⟩,
       ⟨"AAPL", "tagB", 5, "2024-01-02", none, none⟩]).2.2
    (gbsUpdRow (gbsInitRow ⟨"AAPL", "tagA", 10, "2024-01-01", none, none⟩)
      ⟨"AAPL", "tagB", 5, "2024-01-02", none, none⟩)
    (List.mem_singleton.mpr rfl)
  exact ⟨h.1, h.2.1⟩

/-! ## C6 and C10: the canonical grouping in `get_portfolio_values` -/

/-- C6: `get_portfolio_values` groups holdings by canonical symbol: the
grouped records carry exactly the distinct canonical symbols (in
first-encounter order, hence one record per canonical symbol), and each
grouped record's shares is the sum of the shares of the input holdings
whose normalized symbol matches it. -/
theorem gpv_grouping_spec (hs : List Holding) :
    ((gpvGrouped hs).map Holding.symbol =
        firstDedup (hs.map (fun h => normalize_symbol h.symbol))) ∧
    ((gpvGrouped hs).map Holding.symbol).Nodup ∧
    ∀ g ∈ gpvGrouped hs,
      g.shares =
        ((hs.filter (fun h => normalize_symbol h.symbol == g.symbol)).map
          Holding.shares).sum := by
  refine ⟨gFold_map_gkey gpvG gpvG_lawful hs [], gFold_keys_nodup gpvG gpvG_lawful hs, ?_⟩
  intro g hg
  obtain ⟨a, la, hf, hgeq⟩ := mem_gFold_eq gpvG gpvG_lawful hs g hg
  simp only [gpvG_key, gpvG_gkey, gpvG_ginit, gpvG_gupd] at hf hgeq
  rw [gpv_foldl_upd] at hgeq
  rw [hf]
  subst hgeq
  simp [gpvInit]

/-- Witness for C6: two spellings of Berkshire Class B and one Apple holding
collapse into grouped records; the Berkshire record's shares are `1 + 2`. -/
theorem gpv_grouping_spec_witness :
    (1 : ℚ) + 2 =
      ((([⟨"BRK-B", "a", 1, "t1", none, none⟩,
          ⟨"AAPL", "b", 7, "t2", none, none⟩,
          ⟨"BRKB", "c", 2, "t3", none, none⟩] : List Holding).filter
            (fun h => normalize_symbol h.symbol == "BRK.B")).map Holding.shares).sum := by
  have h := (gpv_grouping_spec
      [⟨"BRK-B", "a", 1, "t1", none, none⟩,
       ⟨"AAPL", "b", 7, "t2", none, none⟩,
       ⟨"BRKB", "c", 2, "t3", none, none⟩]).2.2
    ⟨"BRK.B", "a", (1 : ℚ) + 2, "t1", none, none⟩
    (List.mem_cons.mpr (Or.inl rfl))
  exact h

/-- C10: each grouped record of `get_portfolio_values` keeps the tag,
`last_updated`, `last_price` and `last_price_time` of the first input
holding (in list order) with its canonical symbol; only shares accumulate
across the group. -/
theorem gpv_grouping_first_fields (hs : List Holding) (g : Holding)
    (hg : g ∈ gpvGrouped hs) :
    ∃ h0, hs.find? (fun h => normalize_symbol h.symbol == g.symbol) = some h0 ∧
      g.tag = h0.tag ∧ g.last_updated = h0.last_updated ∧
      g.last_price = h0.last_price ∧ g.last_price_time = h0.last_price_time ∧
      g.shares =
        ((hs.filter (fun h => normalize_symbol h.symbol == g.symbol)).map
          Holding.shares).sum := by
  obtain ⟨a, la, hf, hgeq⟩ := mem_gFold_eq gpvG gpvG_lawful hs g hg
  simp only [gpvG_key, gpvG_gkey, gpvG_ginit, gpvG_gupd] at hf hgeq
  rw [gpv_foldl_upd] at hgeq
  refine ⟨a, ?_, ?_⟩
  · rw [find?_eq_head?_filter, hf]
    rfl
  · rw [hf]
    subst hgeq
    simp [gpvInit]

/-- Witness for C10: the grouped Berkshire record keeps the metadata of the
first `BRK-B` holding and sums shares across the aliases. -/
theorem gpv_grouping_first_fields_witness :
    ([⟨"BRK-B", "a", 1, "t1", some 9, some "p1"⟩,
      ⟨"BRKB", "c", 2, "t3", some 4, some "p3"⟩] : List Holding).find?
        (fun h => normalize_symbol h.symbol == ("BRK.B" : String)) =
      some ⟨"BRK-B", "a", 1, "t1", some 9, some "p1"⟩ := by
  obtain ⟨h0, hfind, htag, hlu, hlp, hlpt, hsh⟩ := gpv_grouping_first_fields
    [⟨"BRK-B", "a", 1, "t1", some 9, some "p1"⟩,
     ⟨"BRKB", "c", 2, "t3", some 4, some "p3"⟩]
    ⟨"BRK.B", "a", (1 : ℚ) + 2, "t1", some 9, some "p1"⟩
    (List.mem_singleton.mpr rfl)
  rw [hfind]
  exact hfind.symm.trans rfl

/-! ## C7: tag-scoped replacement is idempotent -/

theorem filter_pos_of_filter_neg {X : Type} (p : X → Bool) (M : List X) :
    (M.filter (fun x => !p x)).filter p = [] := by
  induction M with
  | nil => rfl
  | cons x M ih =>
    cases hx : p x <;> simp [List.filter_cons, hx, ih]

theorem filter_neg_of_filter_pos {X : Type} (p : X → Bool) (M : List X) :
    (M.filter p).filter (fun x => !p x) = [] := by
  induction M with
  | nil => rfl
  | cons x M ih =>
    cases hx : p x <;> simp [List.filter_cons, hx, ih]

theorem filter_bne_rows (P : List Position) (tag ts : String) :
    ((P.map (fun p => LedgerRow.mk p.symbol tag p.shares ts)).filter
      (fun r => r.tag != tag)) = [] := by
  induction P with
  | nil => rfl
  | cons p P ih => simp [List.filter_cons, ih]

theorem filter_beq_rows (P : List Position) (tag ts : String) :
    ((P.map (fun p => LedgerRow.mk p.symbol tag p.shares ts)).filter
      (fun r => r.tag == tag)) =
      P.map (fun p => LedgerRow.mk p.symbol tag p.shares ts) := by
  induction P with
  | nil => rfl
  | cons p P ih => simp [List.filter_cons, ih]

theorem filter_bne_idem (L : List LedgerRow) (tag : String) :
    ((L.filter (fun r => r.tag != tag)).filter (fun r => r.tag != tag)) =
      L.filter (fun r => r.tag != tag) := by
  induction L with
  | nil => rfl
  | cons r L ih =>
    cases hr : (r.tag != tag) <;> simp [List.filter_cons, hr, ih]

/-- C7: replacing a tag's positions twice with the same positions gives
exactly the ledger of a single replacement (so, with pairwise-distinct
position symbols, one row per symbol for that tag, with the same
symbol/tag/shares content), and rows carrying other tags are untouched. -/
theorem update_holdings_idempotent (L : List LedgerRow) (P : List Position)
    (tag t1 t2 : String) (hnd : (P.map Position.symbol).Nodup) :
    update_holdings (update_holdings L P tag t1) P tag t2 = update_holdings L P tag t2 ∧
    (update_holdings (update_holdings L P tag t1) P tag t2).filter (fun r => r.tag == tag) =
      P.map (fun p => LedgerRow.mk p.symbol tag p.shares t2) ∧
    (((update_holdings (update_holdings L P tag t1) P tag t2).filter
        (fun r => r.tag == tag)).map LedgerRow.symbol).Nodup ∧
    (update_holdings (update_holdings L P tag t1) P tag t2).filter (fun r => r.tag != tag) =
      L.filter (fun r => r.tag != tag) := by
  have htwice : update_holdings (update_holdings L P tag t1) P tag t2 =
      update_holdings L P tag t2 := by
    unfold update_holdings
    rw [List.filter_append, filter_bne_rows, filter_bne_idem, List.append_nil]
  refine ⟨htwice, ?_, ?_, ?_⟩
  · rw [htwice]
    unfold update_holdings
    rw [List.filter_append, filter_beq_rows]
    have : (L.filter (fun r => r.tag != tag)).filter (fun r => r.tag == tag) = [] :=
      filter_pos_of_filter_neg (fun r => r.tag == tag) L
    rw [this, List.nil_append]
  · rw [htwice]
    unfold update_holdings
    rw [List.filter_append, filter_beq_rows]
    have : (L.filter (fun r => r.tag != tag)).filter (fun r => r.tag == tag) = [] :=
      filter_pos_of_filter_neg (fun r => r.tag == tag) L
    rw [this, List.nil_append, List.map_map]
    exact hnd
  · rw [htwice]
    unfold update_holdings
    rw [List.filter_append, filter_bne_rows, List.append_nil, filter_bne_idem]

/-- Witness for C7: re-running the same upload for tag `new` leaves the
ledger identical to a single run. -/
theorem update_holdings_idempotent_witness :
    update_holdings
        (update_holdings [⟨"X", "old", 1, "t0"⟩] [⟨"A", 2⟩, ⟨"B", 3⟩] "new" "t1")
        [⟨"A", 2⟩, ⟨"B", 3⟩] "new" "t2" =
      update_holdings [⟨"X", "old", 1, "t0"⟩] [⟨"A", 2⟩, ⟨"B", 3⟩] "new" "t2" :=
  (update_holdings_idempotent [⟨"X", "old", 1, "t0"⟩] [⟨"A", 2⟩, ⟨"B", 3⟩]
    "new" "t1" "t2" (by decide)).1

/-! ## C8: `filter_holdings` ordering and semantics -/

/-- C8: `filter_holdings` applies include, then exclude, then the
hide-options filter: an empty or absent include list filters nothing; a row
survives include and exclude according to tag membership and survives
`hide_options` exactly when its raw symbol does not end in a digit (so
CALL/PUT-suffixed symbols are not removed); and including and excluding the
same tag yields the empty list. -/
theorem filter_holdings_spec (holdings : List Holding) (inc exc : List String) :
    (filter_holdings holdings none none false = holdings ∧
     filter_holdings holdings (some []) (some []) false = holdings) ∧
    (∀ x, x ∈ filter_holdings holdings (some inc) (some exc) true ↔
      (x ∈ holdings ∧ (inc = [] ∨ x.tag ∈ inc) ∧ (exc = [] ∨ x.tag ∉ exc) ∧
        endsInDigit x.symbol = false)) ∧
    (filter_holdings holdings (some ["a"]) (some ["a"]) false = []) ∧
    (filter_holdings [⟨"XCALL", "t", 1, "u", none, none⟩] none none true =
      [⟨"XCALL", "t", 1, "u", none, none⟩]) := by
  refine ⟨⟨rfl, rfl⟩, ?_, ?_, rfl⟩
  · intro x
    cases inc with
    | nil =>
      cases exc with
      | nil =>
        simp [filter_holdings, truthyTags, List.mem_filter]
      | cons e es =>
        simp [filter_holdings, truthyTags, List.mem_filter, and_assoc]
        intro _
        tauto
    | cons i is =>
      cases exc with
      | nil =>
        simp [filter_holdings, truthyTags, List.mem_filter, and_assoc]
        intro _
        tauto
      | cons e es =>
        simp [filter_holdings, truthyTags, List.mem_filter, and_assoc]
        intro _
        tauto
  · show (((holdings.filter fun h => (["a"].contains h.tag)).filter
        fun h => !(["a"].contains h.tag)) = [])
    exact filter_neg_of_filter_pos (fun h => (["a"].contains h.tag)) holdings

/-- Witness for C8: a non-option row with the included tag and without the
excluded tag survives the three filters. -/
theorem filter_holdings_spec_witness :
    (⟨"AAPL", "a", 1, "u", none, none⟩ : Holding) ∈
      filter_holdings [⟨"AAPL", "a", 1, "u", none, none⟩] (some ["a"]) (some ["b"]) true := by
  exact ((filter_holdings_spec [⟨"AAPL", "a", 1, "u", none, none⟩] ["a"] ["b"]).2.1
    ⟨"AAPL", "a", 1, "u", none, none⟩).mpr (by decide)

/-! ## Characterization of the cache-check loop -/

theorem cc_miss_mem (cache : Cache) (now : ℚ) (skipOpt : Bool) :
    ∀ (syms : List String) (s : String),
      s ∈ (cacheCheck cache now skipOpt syms).2 ↔
        (s ∈ syms ∧ (skipOpt && is_option s) = false ∧ isHit cache now s = false) := by
  intro syms
  induction syms with
  | nil => intro s; simp [cacheCheck]
  | cons t rest ih =>
    intro s
    by_cases hskip : (skipOpt && is_option t) = true
    · rw [show cacheCheck cache now skipOpt (t :: rest) = cacheCheck cache now skipOpt rest from
        by simp [cacheCheck, hskip]]
      rw [ih s]
      constructor
      · rintro ⟨h1, h2, h3⟩
        exact ⟨List.mem_cons.mpr (Or.inr h1), h2, h3⟩
      · rintro ⟨h1, h2, h3⟩
        rcases List.mem_cons.mp h1 with rfl | h1
        · rw [hskip] at h2; cases h2
        · exact ⟨h1, h2, h3⟩
    · have hskip' : (skipOpt && is_option t) = false := by simpa using hskip
      cases hdl : dlookup cache t with
      | none =>
        rw [show cacheCheck cache now skipOpt (t :: rest) =
            ((cacheCheck cache now skipOpt rest).1,
              t :: (cacheCheck cache now skipOpt rest).2) from
          by simp [cacheCheck, hskip', hdl]]
        constructor
        · intro h
          rcases List.mem_cons.mp h with rfl | h
          · exact ⟨List.mem_cons.mpr (Or.inl rfl), hskip', by simp [isHit, hdl]⟩
          · obtain ⟨h1, h2, h3⟩ := (ih s).mp h
            exact ⟨List.mem_cons.mpr (Or.inr h1), h2, h3⟩
        · rintro ⟨h1, h2, h3⟩
          rcases List.mem_cons.mp h1 with rfl | h1
          · exact List.mem_cons.mpr (Or.inl rfl)
          · exact List.mem_cons.mpr (Or.inr ((ih s).mpr ⟨h1, h2, h3⟩))
      | some e =>
        by_cases htime : now - e.timestamp < CACHE_EXPIRY_SECONDS
        · rw [show cacheCheck cache now skipOpt (t :: rest) =
              ((t, e.price) :: (cacheCheck cache now skipOpt rest).1,
                (cacheCheck cache now skipOpt rest).2) from
            by simp [cacheCheck, hskip', hdl, htime]]
          rw [ih s]
          constructor
          · rintro ⟨h1, h2, h3⟩
            exact ⟨List.mem_cons.mpr (Or.inr h1), h2, h3⟩
          · rintro ⟨h1, h2, h3⟩
            rcases List.mem_cons.mp h1 with rfl | h1
            · have hhit : isHit cache now s = true := by simp [isHit, hdl, htime]
              rw [hhit] at h3
              cases h3
            · exact ⟨h1, h2, h3⟩
        · rw [show cacheCheck cache now skipOpt (t :: rest) =
              ((cacheCheck cache now skipOpt rest).1,
                t :: (cacheCheck cache now skipOpt rest).2) from
            by simp [cacheCheck, hskip', hdl, htime]]
          constructor
          · intro h
            rcases List.mem_cons.mp h with rfl | h
            · exact ⟨List.mem_cons.mpr (Or.inl rfl), hskip', by simp [isHit, hdl, htime]⟩
            · obtain ⟨h1, h2, h3⟩ := (ih s).mp h
              exact ⟨List.mem_cons.mpr (Or.inr h1), h2, h3⟩
          · rintro ⟨h1, h2, h3⟩
            rcases List.mem_cons.mp h1 with rfl | h1
            · exact List.mem_cons.mpr (Or.inl rfl)
            · exact List.mem_cons.mpr (Or.inr ((ih s).mpr ⟨h1, h2, h3⟩))

theorem cc_hits_find? (cache : Cache) (now : ℚ) (skipOpt : Bool) :
    ∀ (syms : List String) (s : String),
      (cacheCheck cache now skipOpt syms).1.find? (fun kv => kv.1 == s) =
        if s ∈ syms ∧ (skipOpt && is_option s) = false ∧ isHit cache now s = true
        then (dlookup cache s).map (fun e => (s, e.price))
        else none := by
  intro syms
  induction syms with
  | nil => intro s; simp [cacheCheck]
  | cons t rest ih =>
    intro s
    by_cases hts : t = s
    · subst hts
      by_cases hskip : (skipOpt && is_option t) = true
      · rw [show cacheCheck cache now skipOpt (t :: rest) = cacheCheck cache now skipOpt rest from
          by simp [cacheCheck, hskip]]
        rw [ih t]
        simp [hskip]
      · have hskip' : (skipOpt && is_option t) = false := by simpa using hskip
        cases hdl : dlookup cache t with
        | none =>
          rw [show cacheCheck cache now skipOpt (t :: rest) =
              ((cacheCheck cache now skipOpt rest).1,
                t :: (cacheCheck cache now skipOpt rest).2) from
            by simp [cacheCheck, hskip', hdl]]
          rw [ih t]
          have hhit : isHit cache now t = false := by simp [isHit, hdl]
          simp [hhit]
        | some e =>
          by_cases htime : now - e.timestamp < CACHE_EXPIRY_SECONDS
          · rw [show cacheCheck cache now skipOpt (t :: rest) =
                ((t, e.price) :: (cacheCheck cache now skipOpt rest).1,
                  (cacheCheck cache now skipOpt rest).2) from
              by simp [cacheCheck, hskip', hdl, htime]]
            have hhit : isHit cache now t = true := by simp [isHit, hdl, htime]
            simp [List.find?_cons, hskip', hhit, hdl]
          · rw [show cacheCheck cache now skipOpt (t :: rest) =
                ((cacheCheck cache now skipOpt rest).1,
                  t :: (cacheCheck cache now skipOpt rest).2) from
              by simp [cacheCheck, hskip', hdl, htime]]
            rw [ih t]
            have hhit : isHit cache now t = false := by simp [isHit, hdl, htime]
            simp [hhit]
    · by_cases hskip : (skipOpt && is_option t) = true
      · rw [show cacheCheck cache now skipOpt (t :: rest) = cacheCheck cache now skipOpt rest from
          by simp [cacheCheck, hskip]]
        rw [ih s]
        simp [List.mem_cons, hts, Ne.symm hts]
      · have hskip' : (skipOpt && is_option t) = false := by simpa using hskip
        cases hdl : dlookup cache t with
        | none =>
          rw [show cacheCheck cache now skipOpt (t :: rest) =
              ((cacheCheck cache now skipOpt rest).1,
                t :: (cacheCheck cache now skipOpt rest).2) from
            by simp [cacheCheck, hskip', hdl]]
          rw [ih s]
          simp [List.mem_cons, Ne.symm hts]
        | some e =>
          by_cases htime : now - e.timestamp < CACHE_EXPIRY_SECONDS
          · rw [show cacheCheck cache now skipOpt (t :: rest) =
                ((t, e.price) :: (cacheCheck cache now skipOpt rest).1,
                  (cacheCheck cache now skipOpt rest).2) from
              by simp [cacheCheck, hskip', hdl, htime]]
            rw [List.find?_cons_of_neg _ (by simpa using hts), ih s]
            simp [List.mem_cons, Ne.symm hts]
          · rw [show cacheCheck cache now skipOpt (t :: rest) =
                ((cacheCheck cache now skipOpt rest).1,
                  t :: (cacheCheck cache now skipOpt rest).2) from
              by simp [cacheCheck, hskip', hdl, htime]]
            rw [ih s]
            simp [List.mem_cons, Ne.symm hts]

/-! ## Dict lemmas for the fetched batch and the cache writes -/

theorem dictG_lawful (V : Type) : (dictG V).Lawful :=
  ⟨fun _ => rfl, fun _ _ h => h.symm⟩

@[simp] theorem dictG_key (V : Type) : (dictG V).key = Prod.fst := rfl

@[simp] theorem dictG_gkey (V : Type) : (dictG V).gkey = Prod.fst := rfl

@[simp] theorem dictG_ginit (V : Type) : (dictG V).ginit = id := rfl

@[simp] theorem dictG_gupd (V : Type) : (dictG V).gupd = fun _ a => a := rfl

theorem foldl_replace_eq {X : Type} (l : List X) : ∀ (b x : X),
    (∀ y ∈ l, y = x) → b = x → l.foldl (fun _ a => a) b = x := by
  induction l with
  | nil => intro b x _ hb; exact hb
  | cons y l ih =>
    intro b x hall _
    rw [List.foldl_cons]
    exact ih y x (fun z hz => hall z (List.mem_cons.mpr (Or.inr hz))) (hall y (by simp))

theorem foldl_replace_nonempty {X : Type} (l : List X) (b x : X)
    (hall : ∀ y ∈ l, y = x) (hne : l ≠ []) : l.foldl (fun _ a => a) b = x := by
  cases l with
  | nil => cases hne rfl
  | cons y l =>
    rw [List.foldl_cons]
    exact foldl_replace_eq l y x (fun z hz => hall z (List.mem_cons.mpr (Or.inr hz)))
      (hall y (by simp))

theorem find?_beq_self_of_mem (l : List String) (s : String) (hs : s ∈ l) :
    l.find? (fun t => t == s) = some s := by
  induction l with
  | nil => cases hs
  | cons t l ih =>
    by_cases ht : t = s
    · subst ht; simp [List.find?_cons]
    · have : (t == s) = false := by simpa using ht
      rw [List.find?_cons, this]
      exact ih ((List.mem_cons.mp hs).resolve_left (fun hh => ht hh.symm))

theorem cacheStore_find?_of_not_mem (c : Cache) (now : ℚ) (fetched : List (String × ℚ))
    (s : String) (hs : s ∉ fetched.map Prod.fst) :
    (cacheStore c now fetched).find? (fun kv => kv.1 == s) =
      c.find? (fun kv => kv.1 == s) := by
  show (gFold (dictG CacheEntry) c
      (fetched.map (fun sp => (sp.1, CacheEntry.mk sp.2 now)))).find?
        (fun b => (dictG CacheEntry).gkey b == s) =
    c.find? (fun b => (dictG CacheEntry).gkey b == s)
  rw [gFold_find? (dictG CacheEntry) (dictG_lawful CacheEntry)]
  simp only [dictG_key, dictG_gkey, dictG_ginit, dictG_gupd]
  have hfil : (fetched.map (fun sp => (sp.1, CacheEntry.mk sp.2 now))).filter
      (fun a => a.1 == s) = [] := by
    rw [List.filter_eq_nil_iff]
    intro kv hkv
    rcases List.mem_map.mp hkv with ⟨sp, hsp, rfl⟩
    intro hbeq
    exact hs (List.mem_map.mpr ⟨sp, hsp, by simpa using hbeq⟩)
  rw [hfil]
  cases h : c.find? (fun kv => kv.1 == s) <;> simp

theorem cacheStore_find?_fn (c : Cache) (now : ℚ) (toF : List String) (f : String → ℚ)
    (s : String) (hs : s ∈ toF) :
    (cacheStore c now (toF.map (fun t => (t, f t)))).find? (fun kv => kv.1 == s) =
      some (s, CacheEntry.mk (f s) now) := by
  show (gFold (dictG CacheEntry) c
      ((toF.map (fun t => (t, f t))).map (fun sp => (sp.1, CacheEntry.mk sp.2 now)))).find?
        (fun b => (dictG CacheEntry).gkey b == s) =
    some (s, CacheEntry.mk (f s) now)
  rw [List.map_map]
  rw [show ((fun sp : String × ℚ => (sp.1, CacheEntry.mk sp.2 now)) ∘ fun t => (t, f t)) =
      (fun t => (t, CacheEntry.mk (f t) now)) from rfl]
  rw [gFold_find? (dictG CacheEntry) (dictG_lawful CacheEntry)]
  simp only [dictG_key, dictG_gkey, dictG_ginit, dictG_gupd]
  have hfil : (toF.map (fun t => (t, CacheEntry.mk (f t) now))).filter
      (fun a => a.1 == s) =
      (toF.filter (fun t => t == s)).map (fun t => (t, CacheEntry.mk (f t) now)) := by
    rw [List.filter_map]
    rfl
  rw [hfil]
  have hall : ∀ y ∈ (toF.filter (fun t => t == s)).map
      (fun t => (t, CacheEntry.mk (f t) now)), y = (s, CacheEntry.mk (f s) now) := by
    intro y hy
    rcases List.mem_map.mp hy with ⟨t, ht, rfl⟩
    have : t = s := by simpa using (List.mem_filter.mp ht).2
    subst this
    rfl
  have hne : (toF.filter (fun t => t == s)).map (fun t => (t, CacheEntry.mk (f t) now)) ≠ [] := by
    have : s ∈ toF.filter (fun t => t == s) := List.mem_filter.mpr ⟨hs, by simp⟩
    intro hcontra
    rw [List.map_eq_nil_iff] at hcontra
    rw [hcontra] at this
    cases this
  cases hfind : c.find? (fun kv => kv.1 == s) with
  | some b =>
    exact congrArg some (foldl_replace_nonempty _ b (s, CacheEntry.mk (f s) now) hall hne)
  | none =>
    cases hl : (toF.filter (fun t => t == s)).map (fun t => (t, CacheEntry.mk (f t) now)) with
    | nil => cases hne hl
    | cons y ys =>
      have hally : ∀ z ∈ ys, z = (s, CacheEntry.mk (f s) now) := fun z hz =>
        hall z (hl ▸ List.mem_cons.mpr (Or.inr hz))
      have hy : y = (s, CacheEntry.mk (f s) now) :=
        hall y (hl ▸ List.mem_cons.mpr (Or.inl rfl))
      exact congrArg some (foldl_replace_eq ys (id y) (s, CacheEntry.mk (f s) now) hally hy)

/-! ## Behaviour of the yfinance fetch on misses and hits -/

theorem yf_not_empty_of_mem (cache : Cache) (now : ℚ) (skipOpt : Bool)
    (symbols : List String) (s : String)
    (hs : s ∈ (cacheCheck cache now skipOpt symbols).2) :
    (cacheCheck cache now skipOpt symbols).2.isEmpty = false := by
  cases h : (cacheCheck cache now skipOpt symbols).2 with
  | nil => rw [h] at hs; cases hs
  | cons a l => rfl

theorem yf_result_miss (cache : Cache) (symbols : List String) (now : ℚ)
    (attempts : ℕ → Option YData) (skipOpt : Bool) (s : String)
    (hs : s ∈ (cacheCheck cache now skipOpt symbols).2) :
    dlookup (fetch_prices_yfinance cache symbols now attempts skipOpt).1 s =
      some (yfFetchPrice attempts s) ∧
    dlookup (fetch_prices_yfinance cache symbols now attempts skipOpt).2 s =
      some (CacheEntry.mk (yfFetchPrice attempts s) now) := by
  have hmiss := (cc_miss_mem cache now skipOpt symbols s).mp hs
  have hne := yf_not_empty_of_mem cache now skipOpt symbols s hs
  unfold fetch_prices_yfinance
  rw [hne]
  simp only [Bool.false_eq_true, if_false]
  constructor
  · unfold dlookup
    rw [List.find?_append]
    have h1 : (cacheCheck cache now skipOpt symbols).1.find? (fun kv => kv.1 == s) = none := by
      rw [cc_hits_find?]
      rw [if_neg]
      rintro ⟨_, _, h3⟩
      rw [hmiss.2.2] at h3
      cases h3
    rw [h1]
    rw [List.find?_map]
    rw [show ((fun kv : String × ℚ => kv.1 == s) ∘ fun t => (t, yfFetchPrice attempts t)) =
        (fun t => t == s) from rfl]
    rw [find?_beq_self_of_mem _ s hs]
    rfl
  · unfold dlookup
    rw [cacheStore_find?_fn cache now _ (yfFetchPrice attempts) s hs]
    rfl

theorem yf_result_hit (cache : Cache) (symbols : List String) (now : ℚ)
    (attempts : ℕ → Option YData) (skipOpt : Bool) (s : String) (e : CacheEntry)
    (hs : s ∈ symbols) (hopt : (skipOpt && is_option s) = false)
    (hentry : dlookup cache s = some e)
    (hhit : isHit cache now s = true) :
    dlookup (fetch_prices_yfinance cache symbols now attempts skipOpt).1 s = some e.price ∧
    dlookup (fetch_prices_yfinance cache symbols now attempts skipOpt).2 s = some e := by
  have hfind1 : (cacheCheck cache now skipOpt symbols).1.find? (fun kv => kv.1 == s) =
      some (s, e.price) := by
    rw [cc_hits_find?, if_pos ⟨hs, hopt, hhit⟩, hentry]
    rfl
  have hnotmiss : s ∉ (cacheCheck cache now skipOpt symbols).2 := by
    rw [cc_miss_mem]
    rintro ⟨_, _, h3⟩
    rw [hhit] at h3
    cases h3
  unfold fetch_prices_yfinance
  cases hemp : (cacheCheck cache now skipOpt symbols).2.isEmpty with
  | true =>
    simp only [if_true]
    exact ⟨by unfold dlookup; rw [hfind1]; rfl, hentry⟩
  | false =>
    simp only [Bool.false_eq_true, if_false]
    constructor
    · unfold dlookup
      rw [List.find?_append, hfind1]
      rfl
    · unfold dlookup
      rw [cacheStore_find?_of_not_mem cache now _ s ?_]
      · exact hentry
      · rw [List.map_map]
        rw [show (Prod.fst ∘ fun t : String => (t, yfFetchPrice attempts t)) =
            (fun t : String => t) from rfl]
        intro hmem
        rw [List.map_id_fun'] at hmem
        exact hnotmiss hmem

/-- C2: when the provider fails on all three attempts, every cache-miss
symbol of the batch resolves to the sentinel price 0.0 in the returned dict
and is written to the in-memory cache as `{price: 0.0, timestamp: now}`;
the fetch function returns normally (it is total in this model: no provider
exception reaches the caller). -/
theorem yf_retries_exhausted (cache : Cache) (symbols : List String) (now : ℚ)
    (attempts : ℕ → Option YData) (skipOpt : Bool)
    (hfail : attempts 0 = none ∧ attempts 1 = none ∧ attempts 2 = none) :
    ∀ s ∈ (cacheCheck cache now skipOpt symbols).2,
      dlookup (fetch_prices_yfinance cache symbols now attempts skipOpt).1 s = some 0 ∧
      dlookup (fetch_prices_yfinance cache symbols now attempts skipOpt).2 s =
        some (CacheEntry.mk 0 now) := by
  have hfs : firstSuccess attempts 0 3 = none := by
    unfold firstSuccess
    rw [hfail.1]
    unfold firstSuccess
    rw [hfail.2.1]
    unfold firstSuccess
    rw [hfail.2.2]
    rfl
  have hfn : ∀ t, yfFetchPrice attempts t = 0 := by
    intro t
    unfold yfFetchPrice
    rw [hfs]
  intro s hs
  have h := yf_result_miss cache symbols now attempts skipOpt s hs
  rw [hfn s] at h
  exact h

/-- Witness for C2: with an empty cache, one plain symbol and a provider
failing all three attempts, the symbol resolves to price 0 and the cache
gains a `{price: 0, timestamp: now}` entry. -/
theorem yf_retries_exhausted_witness :
    dlookup (fetch_prices_yfinance [] ["AAPL"] 0 (fun _ => none) true).1 "AAPL" = some 0 ∧
    dlookup (fetch_prices_yfinance [] ["AAPL"] 0 (fun _ => none) true).2 "AAPL" =
      some (CacheEntry.mk 0 0) :=
  yf_retries_exhausted [] ["AAPL"] 0 (fun _ => none) true ⟨rfl, rfl, rfl⟩ "AAPL" (by decide)

/-- C4: a symbol with a cache entry stamped `T` is served from the cache,
with its entry untouched, whenever `now - T < 600`; and it is treated as a
cache miss and refetched (its entry restamped `now`) whenever
`now - T ≥ 600`. -/
theorem yf_cache_expiry (cache : Cache) (symbols : List String) (now : ℚ)
    (attempts : ℕ → Option YData) (skipOpt : Bool) (s : String) (e : CacheEntry)
    (hs : s ∈ symbols) (hopt : (skipOpt && is_option s) = false)
    (hentry : dlookup cache s = some e) :
    (now - e.timestamp < CACHE_EXPIRY_SECONDS →
      dlookup (fetch_prices_yfinance cache symbols now attempts skipOpt).1 s = some e.price ∧
      s ∉ (cacheCheck cache now skipOpt symbols).2 ∧
      dlookup (fetch_prices_yfinance cache symbols now attempts skipOpt).2 s = some e) ∧
    (CACHE_EXPIRY_SECONDS ≤ now - e.timestamp →
      s ∈ (cacheCheck cache now skipOpt symbols).2 ∧
      dlookup (fetch_prices_yfinance cache symbols now attempts skipOpt).1 s =
        some (yfFetchPrice attempts s) ∧
      dlookup (fetch_prices_yfinance cache symbols now attempts skipOpt).2 s =
        some (CacheEntry.mk (yfFetchPrice attempts s) now)) := by
  constructor
  · intro hfresh
    have hhit : isHit cache now s = true := by simp [isHit, hentry, hfresh]
    have h := yf_result_hit cache symbols now attempts skipOpt s e hs hopt hentry hhit
    refine ⟨h.1, ?_, h.2⟩
    rw [cc_miss_mem]
    rintro ⟨_, _, h3⟩
    rw [hhit] at h3
    cases h3
  · intro hstale
    have hnf : ¬(now - e.timestamp < CACHE_EXPIRY_SECONDS) := not_lt.mpr hstale
    have hhit : isHit cache now s = false := by simp [isHit, hentry, hnf]
    have hmem : s ∈ (cacheCheck cache now skipOpt symbols).2 :=
      (cc_miss_mem cache now skipOpt symbols s).mpr ⟨hs, hopt, hhit⟩
    exact ⟨hmem, yf_result_miss cache symbols now attempts skipOpt s hmem⟩

/-- Witness for C4: a price cached at T = 0 is reused verbatim (entry
untouched) by a fetch at 599 seconds, and the same symbol is a cache miss
for a fetch at 601 seconds. -/
theorem yf_cache_expiry_witness :
    dlookup (fetch_prices_yfinance [("AAPL", CacheEntry.mk 10 0)] ["AAPL"] 599
      (fun _ => none) true).1 "AAPL" = some 10 ∧
    dlookup (fetch_prices_yfinance [("AAPL", CacheEntry.mk 10 0)] ["AAPL"] 599
      (fun _ => none) true).2 "AAPL" = some (CacheEntry.mk 10 0) ∧
    "AAPL" ∈ (cacheCheck [("AAPL", CacheEntry.mk 10 0)] 601 true ["AAPL"]).2 := by
  have h599 := yf_cache_expiry [("AAPL", CacheEntry.mk 10 0)] ["AAPL"] 599 (fun _ => none)
    true "AAPL" (CacheEntry.mk 10 0) (by decide) (by decide) (by decide)
  have harith : (599 : ℚ) - (CacheEntry.mk (10 : ℚ) 0).timestamp < CACHE_EXPIRY_SECONDS := by
    show (599 : ℚ) - 0 < 600
    rw [sub_zero]
    decide
  obtain ⟨hp, _, hc⟩ := h599.1 harith
  have h601 := yf_cache_expiry [("AAPL", CacheEntry.mk 10 0)] ["AAPL"] 601 (fun _ => none)
    true "AAPL" (CacheEntry.mk 10 0) (by decide) (by decide) (by decide)
  have harith2 : CACHE_EXPIRY_SECONDS ≤ (601 : ℚ) - (CacheEntry.mk (10 : ℚ) 0).timestamp := by
    show (600 : ℚ) ≤ 601 - 0
    rw [sub_zero]
    decide
  obtain ⟨hm, _⟩ := h601.2 harith2
  exact ⟨hp, hc, hm⟩

/-! ## C5: price normalization -/

theorem normPrice_nonneg (p : PFloat) : 0 ≤ normPrice p := by
  unfold normPrice
  cases p with
  | finite q =>
    by_cases hq : 0 < q
    · simp [PFloat.gtZero, PFloat.ltInf, PFloat.toRat, hq, le_of_lt hq]
    · simp [PFloat.gtZero, PFloat.ltInf, PFloat.toRat, hq]
  | inf => simp [PFloat.gtZero, PFloat.ltInf]
  | negInf => simp [PFloat.gtZero, PFloat.ltInf]
  | nan => simp [PFloat.gtZero, PFloat.ltInf]

theorem yfExtract_nonneg (data : YData) (mapped : String) : 0 ≤ yfExtract data mapped := by
  unfold yfExtract
  cases h : dlookup data mapped with
  | none => simp
  | some o =>
    cases o with
    | none => simp
    | some p => exact normPrice_nonneg p

theorem yfFetchPrice_nonneg (attempts : ℕ → Option YData) (s : String) :
    0 ≤ yfFetchPrice attempts s := by
  unfold yfFetchPrice
  cases h : firstSuccess attempts 0 3 with
  | none => simp
  | some data => exact yfExtract_nonneg data (get_provider_symbol s "yfinance")

theorem cc_hits_values (cache : Cache) (now : ℚ) (skipOpt : Bool) :
    ∀ (syms : List String) (kv : String × ℚ),
      kv ∈ (cacheCheck cache now skipOpt syms).1 →
        ∃ e, dlookup cache kv.1 = some e ∧ kv.2 = e.price := by
  intro syms
  induction syms with
  | nil => intro kv hkv; simp [cacheCheck] at hkv
  | cons t rest ih =>
    intro kv hkv
    by_cases hskip : (skipOpt && is_option t) = true
    · rw [show cacheCheck cache now skipOpt (t :: rest) = cacheCheck cache now skipOpt rest from
        by simp [cacheCheck, hskip]] at hkv
      exact ih kv hkv
    · have hskip' : (skipOpt && is_option t) = false := by simpa using hskip
      cases hdl : dlookup cache t with
      | none =>
        rw [show cacheCheck cache now skipOpt (t :: rest) =
            ((cacheCheck cache now skipOpt rest).1,
              t :: (cacheCheck cache now skipOpt rest).2) from
          by simp [cacheCheck, hskip', hdl]] at hkv
        exact ih kv hkv
      | some e =>
        by_cases htime : now - e.timestamp < CACHE_EXPIRY_SECONDS
        · rw [show cacheCheck cache now skipOpt (t :: rest) =
              ((t, e.price) :: (cacheCheck cache now skipOpt rest).1,
                (cacheCheck cache now skipOpt rest).2) from
            by simp [cacheCheck, hskip', hdl, htime]] at hkv
          rcases List.mem_cons.mp hkv with rfl | hkv
          · exact ⟨e, hdl, rfl⟩
          · exact ih kv hkv
        · rw [show cacheCheck cache now skipOpt (t :: rest) =
              ((cacheCheck cache now skipOpt rest).1,
                t :: (cacheCheck cache now skipOpt rest).2) from
            by simp [cacheCheck, hskip', hdl, htime]] at hkv
          exact ih kv hkv

theorem dlookup_mem_values {V : Type} (d : List (String × V)) (s : String) (v : V)
    (h : dlookup d s = some v) : ∃ kv ∈ d, kv.2 = v := by
  unfold dlookup at h
  cases hf : d.find? (fun kv => kv.1 == s) with
  | none => rw [hf] at h; cases h
  | some kv =>
    rw [hf] at h
    exact ⟨kv, List.mem_of_find?_eq_some hf, by simpa using h⟩

/-- Counterexample to C5: under the alpha_vantage provider a negative parsed
price is returned as-is, with no normalization to 0.0. -/
theorem av_negative_price_passthrough :
    fetch_prices Provider.alpha_vantage ["AAPL"] true [] 0 (fun _ => none)
        (fun _ => some (PFloat.finite (-5))) none =
      [("AAPL", PFloat.finite (-5))] ∧
    (-5 : ℚ) < 0 := by
  constructor
  · rfl
  · decide

/-- C5 as amended: the normalization to 0.0 of non-finite, zero or negative
quotes happens in the yfinance fetcher only. There, a fetched price that is
not finite-and-positive normalizes to 0.0, and consequently (for a cache
whose prices are all non-negative, as every write keeps them) every price
in the returned dict and every cached price is non-negative — zero or
finite positive. The other two providers return the parsed price
unchanged. -/
theorem yfinance_price_normalization (cache : Cache) (symbols : List String) (now : ℚ)
    (attempts : ℕ → Option YData) (skipOpt : Bool)
    (hc : ∀ kv ∈ cache, 0 ≤ kv.2.price) :
    (∀ q : ℚ, q ≤ 0 → normPrice (PFloat.finite q) = 0) ∧
    normPrice PFloat.inf = 0 ∧
    normPrice PFloat.negInf = 0 ∧
    normPrice PFloat.nan = 0 ∧
    (∀ kv ∈ (fetch_prices_yfinance cache symbols now attempts skipOpt).1, 0 ≤ kv.2) ∧
    (∀ kv ∈ (fetch_prices_yfinance cache symbols now attempts skipOpt).2, 0 ≤ kv.2.price) := by
  have hhits : ∀ kv ∈ (cacheCheck cache now skipOpt symbols).1, (0 : ℚ) ≤ kv.2 := by
    intro kv hkv
    obtain ⟨e, hdl, hv⟩ := cc_hits_values cache now skipOpt symbols kv hkv
    obtain ⟨kv', hkv', hv'⟩ := dlookup_mem_values cache kv.1 e hdl
    rw [hv, ← hv']
    exact hc kv' hkv'
  refine ⟨?_, rfl, rfl, rfl, ?_, ?_⟩
  · intro q hq
    unfold normPrice
    simp [PFloat.gtZero, not_lt.mpr hq]
  · intro kv hkv
    unfold fetch_prices_yfinance at hkv
    cases hemp : (cacheCheck cache now skipOpt symbols).2.isEmpty with
    | true =>
      rw [hemp] at hkv
      simp only [if_true] at hkv
      exact hhits kv hkv
    | false =>
      rw [hemp] at hkv
      simp only [Bool.false_eq_true, if_false] at hkv
      rcases List.mem_append.mp hkv with hkv | hkv
      · exact hhits kv hkv
      · rcases List.mem_map.mp hkv with ⟨t, _, rfl⟩
        exact yfFetchPrice_nonneg attempts t
  · intro kv hkv
    unfold fetch_prices_yfinance at hkv
    cases hemp : (cacheCheck cache now skipOpt symbols).2.isEmpty with
    | true =>
      rw [hemp] at hkv
      simp only [if_true] at hkv
      exact hc kv hkv
    | false =>
      rw [hemp] at hkv
      simp only [Bool.false_eq_true, if_false] at hkv
      unfold cacheStore at hkv
      rcases mem_foldl_dinsert _ cache kv hkv with hkv | hkv
      · exact hc kv hkv
      · rw [List.map_map] at hkv
        rcases List.mem_map.mp hkv with ⟨t, _, rfl⟩
        exact yfFetchPrice_nonneg attempts t

/-- Witness for C5's amended statement: a negative quote normalizes to 0,
and after a total provider failure the returned zero price is non-negative. -/
theorem yfinance_price_normalization_witness :
    normPrice (PFloat.finite (-5)) = 0 ∧
    (0 : ℚ) ≤ (("AAPL", (0 : ℚ)) : String × ℚ).2 := by
  have h := yfinance_price_normalization [] ["AAPL"] 0 (fun _ => none) true
    (by intro kv hkv; cases hkv)
  exact ⟨h.1 (-5) (by decide), h.2.2.2.2.1 ("AAPL", 0) (by decide)⟩

/-! ## C3: which symbols the providers filter -/

theorem cc_hits_keys_mem (cache : Cache) (now : ℚ) (skipOpt : Bool)
    (syms : List String) (s : String) :
    s ∈ (cacheCheck cache now skipOpt syms).1.map Prod.fst ↔
      (s ∈ syms ∧ (skipOpt && is_option s) = false ∧ isHit cache now s = true) := by
  constructor
  · intro h
    rcases List.mem_map.mp h with ⟨kv, hkv, rfl⟩
    have hsome : ((cacheCheck cache now skipOpt syms).1.find?
        (fun x => x.1 == kv.1)).isSome := by
      rw [List.find?_isSome]
      exact ⟨kv, hkv, by simp⟩
    rw [cc_hits_find?] at hsome
    by_cases hcond : kv.1 ∈ syms ∧ (skipOpt && is_option kv.1) = false ∧
        isHit cache now kv.1 = true
    · exact hcond
    · rw [if_neg hcond] at hsome
      cases hsome
  · rintro ⟨h1, h2, h3⟩
    have hfind := cc_hits_find? cache now skipOpt syms s
    rw [if_pos ⟨h1, h2, h3⟩] at hfind
    cases hdl : dlookup cache s with
    | none => rw [show isHit cache now s = false from by simp [isHit, hdl]] at h3; cases h3
    | some e =>
      rw [hdl] at hfind
      exact List.mem_map.mpr ⟨(s, e.price), List.mem_of_find?_eq_some hfind, rfl⟩

theorem yf_keys_mem (cache : Cache) (symbols : List String) (now : ℚ)
    (attempts : ℕ → Option YData) (skipOpt : Bool) (s : String) :
    s ∈ (fetch_prices_yfinance cache symbols now attempts skipOpt).1.map Prod.fst ↔
      (s ∈ symbols ∧ (skipOpt && is_option s) = false) := by
  unfold fetch_prices_yfinance
  cases hemp : (cacheCheck cache now skipOpt symbols).2.isEmpty with
  | true =>
    simp only [if_true]
    rw [cc_hits_keys_mem]
    constructor
    · rintro ⟨h1, h2, _⟩
      exact ⟨h1, h2⟩
    · rintro ⟨h1, h2⟩
      refine ⟨h1, h2, ?_⟩
      cases h3 : isHit cache now s with
      | true => rfl
      | false =>
        have : s ∈ (cacheCheck cache now skipOpt symbols).2 :=
          (cc_miss_mem cache now skipOpt symbols s).mpr ⟨h1, h2, h3⟩
        rw [List.isEmpty_iff.mp hemp] at this
        cases this
  | false =>
    simp only [Bool.false_eq_true, if_false]
    rw [List.map_append, List.mem_append, List.map_map]
    rw [show (Prod.fst ∘ fun t : String => (t, yfFetchPrice attempts t)) =
        (fun t : String => t) from rfl]
    rw [List.map_id_fun']
    simp only [id_eq]
    rw [cc_hits_keys_mem, cc_miss_mem]
    constructor
    · rintro (⟨h1, h2, _⟩ | ⟨h1, h2, _⟩) <;> exact ⟨h1, h2⟩
    · rintro ⟨h1, h2⟩
      cases h3 : isHit cache now s with
      | true => exact Or.inl ⟨h1, h2, rfl⟩
      | false => exact Or.inr ⟨h1, h2, rfl⟩

/-- Counterexample to C3: with `skip_options=true` under the alpha_vantage
provider an option-like symbol (ending in a digit run) is not excluded: it
is present in the returned mapping. -/
theorem fetch_prices_option_not_excluded :
    is_option "ABC123" = true ∧
    (fetch_prices Provider.alpha_vantage ["ABC123"] true [] 0 (fun _ => none)
        (fun _ => none) none).map Prod.fst = ["ABC123"] := by
  constructor
  · rfl
  · rfl

/-- C3 as amended: `fetch_prices` with `skip_options=true` drops, for every
provider, exactly the symbols containing one of the special characters
`$ ^ = & | ( )`; the digit/CALL/PUT option heuristic is additionally applied
only under the yfinance provider (inside `fetch_prices_yfinance`), while
alpha_vantage and iex_cloud return an entry for every special-character-free
symbol, option-like or not. -/
theorem fetch_prices_filtering (symbols : List String) (cache : Cache) (now : ℚ)
    (attempts : ℕ → Option YData) (avQuote : String → Option PFloat)
    (iexResp : Option (String → Option PFloat)) :
    ((fetch_prices Provider.alpha_vantage symbols true cache now attempts avQuote
        iexResp).map Prod.fst = symbols.filter (fun s => !hasSpecialChar s)) ∧
    ((fetch_prices Provider.iex_cloud symbols true cache now attempts avQuote
        iexResp).map Prod.fst = symbols.filter (fun s => !hasSpecialChar s)) ∧
    (∀ s, s ∈ (fetch_prices Provider.yfinance symbols true cache now attempts avQuote
        iexResp).map Prod.fst ↔
      (s ∈ symbols ∧ hasSpecialChar s = false ∧ is_option s = false)) := by
  have map_fst_pair : ∀ {V : Type} (l : List String) (v : String → V),
      (l.map (fun s => (s, v s))).map Prod.fst = l := by
    intro V l v
    rw [List.map_map]
    rw [show (Prod.fst ∘ fun s : String => (s, v s)) = (fun a : String => a) from rfl]
    rw [List.map_id_fun']
    rfl
  refine ⟨?_, ?_, ?_⟩
  · unfold fetch_prices fetch_prices_alpha_vantage
    rw [if_pos rfl]
    exact map_fst_pair _ _
  · unfold fetch_prices fetch_prices_iex_cloud
    rw [if_pos rfl]
    cases iexResp with
    | none => exact map_fst_pair _ _
    | some f => exact map_fst_pair _ _
  · intro s
    unfold fetch_prices
    rw [if_pos rfl]
    rw [List.map_map]
    rw [show (Prod.fst ∘ fun sp : String × ℚ => (sp.1, PFloat.finite sp.2)) =
        (Prod.fst : String × ℚ → String) from rfl]
    rw [yf_keys_mem]
    rw [List.mem_filter]
    constructor
    · rintro ⟨⟨h1, h2⟩, h3⟩
      refine ⟨h1, by simpa using h2, by simpa using h3⟩
    · rintro ⟨h1, h2, h3⟩
      exact ⟨⟨h1, by simpa using h2⟩, by simpa using h3⟩

/-- Witness for C3's amended statement: a special-character symbol is
dropped under alpha_vantage, and under yfinance a plain symbol is kept
while a digit-suffixed one is not. -/
theorem fetch_prices_filtering_witness :
    (fetch_prices Provider.alpha_vantage ["A$B", "AAPL"] true [] 0 (fun _ => none)
        (fun _ => none) none).map Prod.fst = ["AAPL"] ∧
    "AAPL" ∈ (fetch_prices Provider.yfinance ["AAPL", "ABC123"] true [] 0 (fun _ => none)
        (fun _ => none) none).map Prod.fst ∧
    "ABC123" ∉ (fetch_prices Provider.yfinance ["AAPL", "ABC123"] true [] 0 (fun _ => none)
        (fun _ => none) none).map Prod.fst := by
  have h := fetch_prices_filtering ["A$B", "AAPL"] [] 0 (fun _ => none) (fun _ => none) none
  have h2 := fetch_prices_filtering ["AAPL", "ABC123"] [] 0 (fun _ => none) (fun _ => none) none
  refine ⟨?_, ?_, ?_⟩
  · rw [h.1]
    rfl
  · exact (h2.2.2 "AAPL").mpr ⟨by decide, rfl, rfl⟩
  · intro hmem
    have := (h2.2.2 "ABC123").mp hmem
    have hopt : is_option "ABC123" = true := rfl
    rw [hopt] at this
    cases this.2.2

/-! ## C1: the no-refresh path of `get_portfolio_values` -/

/-- C1: with `force_refresh=false`, every grouped holding with a non-null,
non-zero `last_price` is returned valued at exactly that price, its symbol
is not in the fetched-symbol list, and no Price Store write mentions it;
every grouped holding whose `last_price` is null or zero has its price
taken from the live fetch of exactly the needs-fetch symbols, that price is
persisted through `update_price` with the current timestamp, and the
enriched row (with `last_price`/`last_price_time` restamped) is part of the
returned rows. The write list covers exactly the needs-fetch symbols. -/
theorem map_symbol_pw (l : List String) (f : String → ℚ) (t : String) :
    (l.map (fun s => PriceWrite.mk s (f s) t)).map PriceWrite.symbol = l := by
  rw [List.map_map]
  rw [show (PriceWrite.symbol ∘ fun s => PriceWrite.mk s (f s) t) = (fun a : String => a) from
    rfl]
  rw [List.map_id_fun']
  rfl

theorem gpv_cache_partition (hs : List Holding) (fetch : List String → List (String × ℚ))
    (now_iso : String) :
    (∀ g ∈ gpvGrouped hs, ∀ p : ℚ, g.last_price = some p → p ≠ 0 →
      (enrichRow g p ∈ (get_portfolio_values hs false fetch now_iso).1 ∧
       g.symbol ∉ ((gpvGrouped hs).filter needsFetch).map Holding.symbol ∧
       ∀ w ∈ (get_portfolio_values hs false fetch now_iso).2, w.symbol ≠ g.symbol)) ∧
    (∀ g ∈ gpvGrouped hs, needsFetch g = true →
      (PriceWrite.mk g.symbol
          (priceLookup (fetch (((gpvGrouped hs).filter needsFetch).map Holding.symbol))
            g.symbol) now_iso ∈ (get_portfolio_values hs false fetch now_iso).2 ∧
       enrichRow
          { g with
            last_price := some (priceLookup
              (fetch (((gpvGrouped hs).filter needsFetch).map Holding.symbol)) g.symbol),
            last_price_time := some now_iso }
          (priceLookup (fetch (((gpvGrouped hs).filter needsFetch).map Holding.symbol))
            g.symbol) ∈ (get_portfolio_values hs false fetch now_iso).1)) ∧
    ((get_portfolio_values hs false fetch now_iso).2.map PriceWrite.symbol =
      ((gpvGrouped hs).filter needsFetch).map Holding.symbol) := by
  have hwrites : (get_portfolio_values hs false fetch now_iso).2.map PriceWrite.symbol =
      ((gpvGrouped hs).filter needsFetch).map Holding.symbol := by
    unfold get_portfolio_values
    simp only [Bool.false_eq_true, if_false]
    cases hemp : (((gpvGrouped hs).filter needsFetch).map Holding.symbol).isEmpty with
    | true =>
      simp only [hemp, if_true]
      rw [List.isEmpty_iff.mp hemp]
      rfl
    | false =>
      simp only [hemp, Bool.false_eq_true, if_false]
      exact map_symbol_pw _ _ _
  refine ⟨?_, ?_, hwrites⟩
  · intro g hg p hp hpz
    have hnf : needsFetch g = false := by
      unfold needsFetch
      rw [hp]
      simpa using hpz
    have hhit : g ∈ (gpvGrouped hs).filter (fun h => !needsFetch h) :=
      List.mem_filter.mpr ⟨hg, by rw [hnf]; rfl⟩
    have hrow : enrichRow g p ∈ ((gpvGrouped hs).filter (fun h => !needsFetch h)).map
        (fun h => enrichRow h (match h.last_price with | some p => p | none => 0)) := by
      refine List.mem_map.mpr ⟨g, hhit, ?_⟩
      rw [hp]
    have hnotin : g.symbol ∉ ((gpvGrouped hs).filter needsFetch).map Holding.symbol := by
      intro hmem
      rcases List.mem_map.mp hmem with ⟨g', hg', hsym⟩
      have hg'm : g' ∈ gpvGrouped hs := (List.mem_filter.mp hg').1
      have : g' = g := by
        have hnd : ((gpvGrouped hs).map Holding.symbol).Nodup :=
          gFold_keys_nodup gpvG gpvG_lawful hs
        exact List.inj_on_of_nodup_map hnd hg'm hg hsym
      rw [this] at hg'
      rw [(List.mem_filter.mp hg').2] at hnf
      cases hnf
    refine ⟨?_, hnotin, ?_⟩
    · unfold get_portfolio_values
      simp only [Bool.false_eq_true, if_false]
      cases hemp : (((gpvGrouped hs).filter needsFetch).map Holding.symbol).isEmpty with
      | true =>
        simp only [hemp, if_true]
        exact hrow
      | false =>
        simp only [hemp, Bool.false_eq_true, if_false]
        exact List.mem_append.mpr (Or.inl hrow)
    · intro w hw
      have : w.symbol ∈ (get_portfolio_values hs false fetch now_iso).2.map
          PriceWrite.symbol := List.mem_map.mpr ⟨w, hw, rfl⟩
      rw [hwrites] at this
      intro heq
      rw [heq] at this
      exact hnotin this
  · intro g hg hnf
    have hmemf : g ∈ (gpvGrouped hs).filter needsFetch := List.mem_filter.mpr ⟨hg, hnf⟩
    have hsymmem : g.symbol ∈ ((gpvGrouped hs).filter needsFetch).map Holding.symbol :=
      List.mem_map.mpr ⟨g, hmemf, rfl⟩
    have hemp : (((gpvGrouped hs).filter needsFetch).map Holding.symbol).isEmpty = false := by
      cases h : ((gpvGrouped hs).filter needsFetch).map Holding.symbol with
      | nil => rw [h] at hsymmem; cases hsymmem
      | cons a l => rfl
    unfold get_portfolio_values
    simp only [Bool.false_eq_true, if_false, hemp]
    constructor
    · exact List.mem_map.mpr ⟨g.symbol, hsymmem, rfl⟩
    · refine List.mem_append.mpr (Or.inr ?_)
      exact List.mem_map.mpr ⟨g, hmemf, rfl⟩

/-- Witness for C1: one holding with a cached price 5 is returned at price 5
with no write; one holding with no price is fetched at 7, written to the
Price Store and merged into the rows. -/
theorem gpv_cache_partition_witness :
    enrichRow (Holding.mk "A" "t" 1 "u" (some 5) (some "pt")) 5 ∈
      (get_portfolio_values
        [Holding.mk "A" "t" 1 "u" (some 5) (some "pt"),
         Holding.mk "B" "t" 2 "u" none none] false
        (fun _ => [("B", 7)]) "T").1 ∧
    PriceWrite.mk "B" 7 "T" ∈
      (get_portfolio_values
        [Holding.mk "A" "t" 1 "u" (some 5) (some "pt"),
         Holding.mk "B" "t" 2 "u" none none] false
        (fun _ => [("B", 7)]) "T").2 := by
  have h := gpv_cache_partition
    [Holding.mk "A" "t" 1 "u" (some 5) (some "pt"),
     Holding.mk "B" "t" 2 "u" none none]
    (fun _ => [("B", 7)]) "T"
  have h1 := h.1 (Holding.mk "A" "t" 1 "u" (some 5) (some "pt")) (by decide) 5 rfl (by decide)
  have h2 := h.2.1 (Holding.mk "B" "t" 2 "u" none none) (by decide) (by decide)
  exact ⟨h1.1, h2.1⟩

end ChatWallStreet
